import Mathlib

/-!
Verification of the threshold ECDSA signature scheme implemented by the
`TrueThresholdSignature` class in `src/tss.mjs`.

Modelling conventions.

The implementation works with `bn.js` big integers that are reduced with
`umod(this.n)` after every arithmetic operation, where `this.n` is the order
of the secp256k1 group.  A value held in reduced form is an element of
`ZMod N`, and the operations used by the source translate as follows:

* `a.mul(b).umod(n)`, `a.add(b).umod(n)` are multiplication and addition in
  `ZMod N`;
* `a.sub(b).umod(n)` (the result of `sub` may be negative, `umod` returns the
  canonical non-negative residue) is subtraction in `ZMod N`;
* `a.invm(n)` is the extended-euclidean modular inverse, which is exactly
  `Inv.inv` on `ZMod N` (`ZMod.inv` is defined through `Nat.gcdA`);
* `x.toString(16).padStart(64, '0')` followed by `new BN(·, 16)` is the
  identity on values below `2 ^ 256`, so scalars carried through records as
  zero-padded hex strings are modelled by their numeric value (a `Nat`).

The design is explicitly curve-agnostic (spec section 6): the curve is an
external capability `{ groupOrder, basePoint, scalarMultiply, verify, ... }`.
The group order `this.n` is therefore a parameter `N : Nat` of every
definition, the x-coordinate of `scalarMultiply(basePoint, k)` is a parameter
`gX : Nat → Nat`, the SHA-256 digest is a parameter `hash : String → Nat`
(digest hex strings are modelled by their numeric value), the external ECDSA
verification primitive is a parameter `ecdsaVerify`, public-key decoding
(`ec.keyFromPublic`, which throws on malformed input) is a parameter
`decodeKey : String → Option K`, and the wall clock read by
`new Date().toISOString()` is a parameter `now : String`.

Fields of the source records that no claim depends on (`created`,
`timestamp`, `securityNote`, `securityGuarantee`, `shareIndex`, the party's
copy of the public key) are omitted; `verifiedAt` is kept because the
idempotence claim depends on it.
-/

/-- Party record, as assembled by `generateDistributedKeys` (tss.mjs:70-76).
`privateKeyShare` is stored in the source as a 64-digit hex string; it is
modelled by its numeric value. -/
structure Party where
  id : Nat
  privateKeyShare : Nat
  deriving DecidableEq

/-- Partial signature record (tss.mjs:149-158).  `r` and `si` are 64-digit
hex strings in the source, modelled by their numeric values; `messageHash`
is the SHA-256 digest hex string, modelled by its numeric value. -/
structure PartialSignature where
  partyId : Nat
  sessionId : String
  r : Nat
  si : Nat
  messageHash : Nat
  message : String
  deriving DecidableEq

/-- Combined signature record (tss.mjs:237-246). -/
structure CombinedSignature where
  r : Nat
  s : Nat
  message : String
  messageHash : Nat
  participatingParties : List Nat
  sessionId : String
  deriving DecidableEq

/-- The four distinct validation failures of `combinePartialSignatures`
(tss.mjs:169-170, 178-179, 188-189, 195-196), each raised as a distinct
`Error` in the source. -/
inductive CombineError where
  | insufficientSignatures
  | nonceMismatch
  | invalidParty
  | insufficientUniqueParties
  deriving DecidableEq

/-- Result of `verifySignature` (tss.mjs:280-293): either the success record
`{valid: true, message, publicKey, verifiedAt, participants}` or a failure
record `{valid: false, reason}`. -/
inductive VerifyResult where
  | valid (message : String) (publicKey : String) (verifiedAt : String)
      (participants : List Nat)
  | invalid (reason : String)
  deriving DecidableEq

/-- `generatePolynomialCoefficients` (tss.mjs:26-35): the constant term is
the secret, followed by `threshold - 1` random scalars.  The random draws
`new BN(randomBytes(32)).umod(this.n)` are modelled by an injected stream
`randomScalars : Nat → ZMod N` giving the value of each successive draw. -/
def generatePolynomialCoefficients (N threshold : Nat) (secret : ZMod N)
    (randomScalars : Nat → ZMod N) : List (ZMod N) :=
  secret :: (List.range (threshold - 1)).map randomScalars

/-- `evaluatePolynomial` (tss.mjs:37-49): iterative accumulation of
`result += coeff * xPower; xPower *= x`, every step reduced `umod n`. -/
def evaluatePolynomial (N : Nat) (coefficients : List (ZMod N)) (x : ZMod N) :
    ZMod N :=
  (coefficients.foldl
    (fun acc coeff => (acc.1 + coeff * acc.2, acc.2 * x))
    ((0 : ZMod N), (1 : ZMod N))).1

/-- The party record with id `i` built by the key-generation loop
(tss.mjs:66-80): its share is the polynomial evaluated at `i`. -/
def keygenParty (N threshold : Nat) (secret : ZMod N)
    (randomScalars : Nat → ZMod N) (i : Nat) : Party :=
  { id := i,
    privateKeyShare :=
      (evaluatePolynomial N
        (generatePolynomialCoefficients N threshold secret randomScalars)
        (i : ZMod N)).val }

/-- The full party list built by `generateDistributedKeys` (tss.mjs:65-80),
one party for each id `1..totalParties`. -/
def keygenParties (N threshold totalParties : Nat) (secret : ZMod N)
    (randomScalars : Nat → ZMod N) : List Party :=
  (List.range totalParties).map
    (fun idx => keygenParty N threshold secret randomScalars (idx + 1))

/-- `lagrangeCoefficient` (tss.mjs:105-122): for each `j ≠ i` in `indices`
multiply the accumulator by `num = (n - j) umod n = -j` and
`denInv = ((i - j) umod n).invm(n) = (i - j)⁻¹`. -/
def lagrangeCoefficient (N : Nat) (i : Nat) (indices : List Nat) : ZMod N :=
  indices.foldl
    (fun result j =>
      if i ≠ j then
        result * (-(j : ZMod N)) * (((i : ZMod N) - (j : ZMod N))⁻¹)
      else result)
    1

/-- `generatePartialSignature` (tss.mjs:129-166) on the explicit-nonce path
(`nonce` supplied, so `sessionNonce = nonce`; the `Date.now()`-dependent
default-nonce fallback of tss.mjs:124-127 is flagged non-functional by the
spec and exercised by no claim).  `hash message` models
`CryptoJS.SHA256(message).toString()` as a numeric digest, `nonce` the hex
nonce string as its numeric value, and `gX kVal` the x-coordinate of
`ec.g.mul(k)` as a numeric value. -/
def generatePartialSignature (N : Nat) (hash : String → Nat)
    (gX : Nat → Nat) (message : String) (party : Party) (sessionId : String)
    (nonce : Nat) : PartialSignature :=
  let messageHash := hash message
  let messageHashBN : ZMod N := (messageHash : ZMod N)
  let k : ZMod N := (nonce : ZMod N)
  let r : ZMod N := ((gX k.val : Nat) : ZMod N)
  let xi : ZMod N := (party.privateKeyShare : ZMod N)
  let kInv : ZMod N := k⁻¹
  let rxiMod : ZMod N := r * xi
  let sum : ZMod N := messageHashBN + rxiMod
  let si : ZMod N := kInv * sum
  { partyId := party.id,
    sessionId := sessionId,
    r := r.val,
    si := si.val,
    messageHash := messageHash,
    message := message }

/-- `validPartyIds` (tss.mjs:183): `Array.from({length: totalParties},
(_, i) => i + 1)`, the list `[1, ..., totalParties]`. -/
def validPartyIds (totalParties : Nat) : List Nat :=
  (List.range totalParties).map (fun i => i + 1)

/-- The first-seen deduplication performed by `[...new Set(ids)]`
(tss.mjs:193): JavaScript `Set` iteration preserves insertion order, so the
result keeps the first occurrence of each value.  `seen` is the set of
values already inserted (call with `[]`). -/
def firstSeenDedup : List Nat → List Nat → List Nat
  | [], _ => []
  | x :: xs, seen =>
      if x ∈ seen then firstSeenDedup xs seen
      else x :: firstSeenDedup xs (x :: seen)

/-- The selection loop of `combinePartialSignatures` (tss.mjs:199-211):
scan the input in order, keep the first occurrence of each `partyId`
(`usedPartyIds` is a `Set`, modelled by a list used only for membership),
and break as soon as `threshold` signatures have been kept. -/
def selectUniqueSigs (threshold : Nat) :
    List PartialSignature → List PartialSignature → List Nat →
    List PartialSignature
  | [], acc, _ => acc
  | sig :: rest, acc, used =>
      if sig.partyId ∈ used then selectUniqueSigs threshold rest acc used
      else if acc.length + 1 = threshold then acc ++ [sig]
      else selectUniqueSigs threshold rest (acc ++ [sig]) (sig.partyId :: used)

/-- The combination loop of `combinePartialSignatures` (tss.mjs:213-228):
`s = Σ lagrangeCoefficient(partyId, selectedParticipantIds) * si umod n`.
The source iterates `i = 0 .. threshold - 1` indexing `uniquePartialSigs`,
whose length is exactly `threshold` whenever the loop is reached, so the
loop is a fold over the selected list. -/
def lagrangeSum (N : Nat) (selected : List PartialSignature) : ZMod N :=
  let selectedParticipantIds := selected.map (fun sig => sig.partyId)
  selected.foldl
    (fun s sig =>
      s + lagrangeCoefficient N sig.partyId selectedParticipantIds *
        (sig.si : ZMod N))
    0

/-- Low-s normalization (tss.mjs:230-235): `halfN = this.n.shrn(1)` is
`N / 2`, and if `s.gt(halfN)` then `s = this.n.sub(s)`. -/
def normalizeS (N : Nat) (s : ZMod N) : Nat :=
  if N / 2 < s.val then N - s.val else s.val

/-- `combinePartialSignatures` (tss.mjs:168-254).  The thrown `Error`s are
modelled by `Except` with one constructor per distinct failure.  The inner
`[]` case is unreachable in the class (the constructor enforces
`threshold ≥ 2`, and the length check has already passed): the source would
read `partialSignatures[0]` there. -/
def combinePartialSignatures (N threshold totalParties : Nat)
    (message : String) (partialSignatures : List PartialSignature) :
    Except CombineError CombinedSignature :=
  if partialSignatures.length < threshold then
    .error .insufficientSignatures
  else
    match partialSignatures with
    | [] => .error .insufficientSignatures
    | first :: _ =>
      if ∃ sig ∈ partialSignatures, sig.r ≠ first.r then
        .error .nonceMismatch
      else if ¬ (∀ sig ∈ partialSignatures,
          sig.partyId ∈ validPartyIds totalParties) then
        .error .invalidParty
      else if (firstSeenDedup
          (partialSignatures.map (fun sig => sig.partyId)) []).length <
          threshold then
        .error .insufficientUniqueParties
      else
        let uniquePartialSigs := selectUniqueSigs threshold partialSignatures [] []
        let s := lagrangeSum N uniquePartialSigs
        .ok { r := first.r,
              s := normalizeS N s,
              message := message,
              messageHash := first.messageHash,
              participatingParties :=
                uniquePartialSigs.map (fun sig => sig.partyId),
              sessionId := first.sessionId }

/-- `verifySignature` (tss.mjs:256-301).  `decodeKey` models
`ec.keyFromPublic(publicKey, 'hex')` (`none` when the source call throws),
`ecdsaVerify key digest r s` models `key.verify(msgHashArr, {r, s})`, and
`now` models `new Date().toISOString()` at call time.  The source reason
string for a malformed key carries the caught error message as a suffix;
the fixed prefix is kept. -/
def verifySignature {K : Type} (hash : String → Nat)
    (decodeKey : String → Option K)
    (ecdsaVerify : K → Nat → Nat → Nat → Bool) (now : String)
    (signature : CombinedSignature) (publicKey : String) : VerifyResult :=
  let messageHash := hash signature.message
  if messageHash ≠ signature.messageHash then
    .invalid "Message hash mismatch"
  else
    match decodeKey publicKey with
    | none => .invalid "Invalid public key format"
    | some key =>
      if ecdsaVerify key messageHash signature.r signature.s then
        .valid signature.message publicKey now signature.participatingParties
      else
        .invalid "Signature verification failed"

/-- Erase the wall-clock field of a verification result, leaving the parts
that depend only on the arguments of `verifySignature`. -/
def stripVerifiedAt : VerifyResult → VerifyResult
  | .valid message publicKey _ participants =>
      .valid message publicKey "" participants
  | .invalid reason => .invalid reason

/-- C6: on the explicit-nonce path, `generatePartialSignature` returns the
record with `messageHash = hash(message)`, `k = nonce mod groupOrder`,
`r = (scalarMultiply(basePoint, k)).x mod groupOrder` and
`si = k⁻¹ * (e + r * privateKeyShare) mod groupOrder`, every intermediate
product and sum reduced modulo the group order. -/
theorem tss_C6 (N : Nat) (hash : String → Nat) (gX : Nat → Nat)
    (message : String) (party : Party) (sessionId : String) (nonce : Nat) :
    generatePartialSignature N hash gX message party sessionId nonce =
      { partyId := party.id,
        sessionId := sessionId,
        r := ((gX (nonce : ZMod N).val : Nat) : ZMod N).val,
        si := ((nonce : ZMod N)⁻¹ *
          ((hash message : ZMod N) +
            ((gX (nonce : ZMod N).val : Nat) : ZMod N) *
              (party.privateKeyShare : ZMod N))).val,
        messageHash := hash message,
        message := message } := rfl

/-- C7: `verifySignature` is a total function into structured results (the
embedding returns a `VerifyResult` on every input, mirroring the
catch-all of tss.mjs:295-300): a digest mismatch yields the hash-mismatch
failure before the public key is ever decoded, a key that fails to decode
yields the invalid-public-key failure, and a rejection by the external
ECDSA primitive yields the verification-failed failure. -/
theorem tss_C7 {K : Type} (hash : String → Nat)
    (decodeKey : String → Option K)
    (ecdsaVerify : K → Nat → Nat → Nat → Bool) (now : String)
    (signature : CombinedSignature) (publicKey : String) :
    (hash signature.message ≠ signature.messageHash →
      verifySignature hash decodeKey ecdsaVerify now signature publicKey =
        .invalid "Message hash mismatch") ∧
    (hash signature.message = signature.messageHash →
      decodeKey publicKey = none →
      verifySignature hash decodeKey ecdsaVerify now signature publicKey =
        .invalid "Invalid public key format") ∧
    (∀ key, hash signature.message = signature.messageHash →
      decodeKey publicKey = some key →
      ecdsaVerify key signature.messageHash signature.r signature.s =
        false →
      verifySignature hash decodeKey ecdsaVerify now signature publicKey =
        .invalid "Signature verification failed") := by
  refine ⟨fun h1 => ?_, fun h1 h2 => ?_, fun key h1 h2 h3 => ?_⟩ <;>
    simp [verifySignature, h1, *]

/-- Witness for C7: the three failure branches at concrete inputs. -/
theorem tss_C7_witness :
    @verifySignature Nat (fun _ => 0) (fun _ => none) (fun _ _ _ _ => false)
      "t" ⟨0, 0, "m", 1, [], "s"⟩ "pk" = .invalid "Message hash mismatch" ∧
    @verifySignature Nat (fun _ => 0) (fun _ => none) (fun _ _ _ _ => false)
      "t" ⟨0, 0, "m", 0, [], "s"⟩ "pk" = .invalid "Invalid public key format" ∧
    @verifySignature Nat (fun _ => 0) (fun _ => some 0) (fun _ _ _ _ => false)
      "t" ⟨0, 0, "m", 0, [], "s"⟩ "pk" =
      .invalid "Signature verification failed" :=
  ⟨(tss_C7 (fun _ => 0) (fun _ => none) (fun _ _ _ _ => false) "t"
      ⟨0, 0, "m", 1, [], "s"⟩ "pk").1 (by decide),
   (tss_C7 (fun _ => 0) (fun _ => none) (fun _ _ _ _ => false) "t"
      ⟨0, 0, "m", 0, [], "s"⟩ "pk").2.1 rfl rfl,
   (tss_C7 (fun _ => 0) (fun _ => some 0) (fun _ _ _ _ => false) "t"
      ⟨0, 0, "m", 0, [], "s"⟩ "pk").2.2 0 rfl rfl rfl⟩

/-- C9 (amended): two calls of `verifySignature` on the same signature and
public key agree on everything except the `verifiedAt` wall-clock field of
a successful result; in particular the `valid` flag and the failure reason
are identical.  (The claim as frozen — fully equal result values — fails
because the success record embeds `new Date().toISOString()`, see the
counterexample.) -/
theorem tss_C9 {K : Type} (hash : String → Nat)
    (decodeKey : String → Option K)
    (ecdsaVerify : K → Nat → Nat → Nat → Bool) (now₁ now₂ : String)
    (signature : CombinedSignature) (publicKey : String) :
    stripVerifiedAt
      (verifySignature hash decodeKey ecdsaVerify now₁ signature publicKey) =
    stripVerifiedAt
      (verifySignature hash decodeKey ecdsaVerify now₂ signature publicKey) := by
  unfold verifySignature
  by_cases h1 : hash signature.message ≠ signature.messageHash
  · simp [h1]
  · cases hd : decodeKey publicKey with
    | none => simp [h1, hd]
    | some key =>
        by_cases h2 :
          ecdsaVerify key (hash signature.message) signature.r signature.s
        · simp [h1, hd, h2, stripVerifiedAt]
        · simp [h1, hd, h2]

/-- Counterexample for C9 as frozen: a signature that verifies successfully
yields result records that differ between two calls, because the success
record carries the call-time clock value. -/
theorem tss_C9_counterexample :
    @verifySignature Nat (fun _ => 0) (fun _ => some 0) (fun _ _ _ _ => true)
      "2024-01-01T00:00:00.000Z" ⟨0, 0, "m", 0, [], "s"⟩ "pk" ≠
    @verifySignature Nat (fun _ => 0) (fun _ => some 0) (fun _ _ _ _ => true)
      "2024-01-01T00:00:01.000Z" ⟨0, 0, "m", 0, [], "s"⟩ "pk" := by
  decide

/-- Membership in `validPartyIds` is exactly the range condition
`1..totalParties`. -/
theorem mem_validPartyIds (totalParties i : Nat) :
    i ∈ validPartyIds totalParties ↔ 1 ≤ i ∧ i ≤ totalParties := by
  simp only [validPartyIds, List.mem_map, List.mem_range]
  constructor
  · rintro ⟨a, ha, rfl⟩
    omega
  · rintro ⟨h1, h2⟩
    exact ⟨i - 1, by omega, by omega⟩

/-- Elements of `firstSeenDedup l seen` are the elements of `l` outside
`seen`. -/
theorem mem_firstSeenDedup (l : List Nat) : ∀ (seen : List Nat) (y : Nat),
    y ∈ firstSeenDedup l seen ↔ y ∈ l ∧ y ∉ seen := by
  induction l with
  | nil => simp [firstSeenDedup]
  | cons x xs ih =>
    intro seen y
    by_cases hx : x ∈ seen
    · rw [firstSeenDedup, if_pos hx, ih]
      constructor
      · rintro ⟨h1, h2⟩
        exact ⟨List.mem_cons_of_mem x h1, h2⟩
      · rintro ⟨h1, h2⟩
        rcases List.mem_cons.mp h1 with h1 | h1
        · exact absurd (h1 ▸ hx) h2
        · exact ⟨h1, h2⟩
    · rw [firstSeenDedup, if_neg hx]
      constructor
      · intro hm
        rcases List.mem_cons.mp hm with hm | hm
        · exact ⟨hm ▸ List.mem_cons_self x xs, hm ▸ hx⟩
        · rcases (ih (x :: seen) y).mp hm with ⟨h1, h2⟩
          exact ⟨List.mem_cons_of_mem x h1,
            fun hy => h2 (List.mem_cons_of_mem x hy)⟩
      · rintro ⟨h1, h2⟩
        rcases List.mem_cons.mp h1 with h1 | h1
        · exact h1 ▸ List.mem_cons_self x _
        · by_cases hyx : y = x
          · exact hyx ▸ List.mem_cons_self x _
          · exact List.mem_cons_of_mem x ((ih (x :: seen) y).mpr
              ⟨h1, fun hy => (List.mem_cons.mp hy).elim hyx h2⟩)

/-- The list produced by `firstSeenDedup` has no duplicates. -/
theorem firstSeenDedup_nodup (l : List Nat) : ∀ seen : List Nat,
    (firstSeenDedup l seen).Nodup := by
  induction l with
  | nil => intro seen; simp [firstSeenDedup]
  | cons x xs ih =>
    intro seen
    by_cases hx : x ∈ seen
    · rw [firstSeenDedup, if_pos hx]
      exact ih seen
    · rw [firstSeenDedup, if_neg hx]
      refine List.nodup_cons.mpr ⟨fun hmem => ?_, ih (x :: seen)⟩
      exact ((mem_firstSeenDedup xs (x :: seen) x).mp hmem).2
        (List.mem_cons_self x seen)

/-- The length of `[...new Set(ids)]` is the number of distinct values. -/
theorem firstSeenDedup_length_eq_card (l : List Nat) :
    (firstSeenDedup l []).length = l.toFinset.card := by
  rw [← List.toFinset_card_of_nodup (firstSeenDedup_nodup l [])]
  congr 1
  ext y
  simp [List.mem_toFinset, mem_firstSeenDedup]

/-- Evaluation of `combinePartialSignatures` on a nonempty input: the four
validations in source order, then the combined record. -/
theorem combine_cons (N threshold totalParties : Nat) (message : String)
    (first : PartialSignature) (rest : List PartialSignature) :
    combinePartialSignatures N threshold totalParties message (first :: rest) =
      if (first :: rest).length < threshold then
        .error .insufficientSignatures
      else if ∃ sig ∈ first :: rest, sig.r ≠ first.r then
        .error .nonceMismatch
      else if ¬ (∀ sig ∈ first :: rest,
          sig.partyId ∈ validPartyIds totalParties) then
        .error .invalidParty
      else if (firstSeenDedup
          ((first :: rest).map (fun sig => sig.partyId)) []).length <
          threshold then
        .error .insufficientUniqueParties
      else
        .ok { r := first.r,
              s := normalizeS N
                (lagrangeSum N (selectUniqueSigs threshold (first :: rest) [] [])),
              message := message,
              messageHash := first.messageHash,
              participatingParties :=
                (selectUniqueSigs threshold (first :: rest) [] []).map
                  (fun sig => sig.partyId),
              sessionId := first.sessionId } := rfl

/-- On the empty input the source fails the length check (or, were the
threshold zero, would fault reading `partialSignatures[0]`). -/
theorem combine_nil (N threshold totalParties : Nat) (message : String) :
    combinePartialSignatures N threshold totalParties message [] =
      .error .insufficientSignatures := by
  unfold combinePartialSignatures
  split <;> rfl

/-- The low-s normalization always lands at or below `groupOrder / 2`. -/
theorem normalizeS_le (N : Nat) (s : ZMod N) : normalizeS N s ≤ N / 2 := by
  unfold normalizeS
  split <;> omega

/-- Inversion: a successful combination implies the input was nonempty,
every validation passed, and the output is the combined record. -/
theorem combine_eq_ok (N threshold totalParties : Nat) (message : String)
    (sigs : List PartialSignature) (out : CombinedSignature)
    (h : combinePartialSignatures N threshold totalParties message sigs =
      .ok out) :
    ∃ first rest, sigs = first :: rest ∧
      out = { r := first.r,
              s := normalizeS N
                (lagrangeSum N (selectUniqueSigs threshold sigs [] [])),
              message := message,
              messageHash := first.messageHash,
              participatingParties :=
                (selectUniqueSigs threshold sigs [] []).map
                  (fun sig => sig.partyId),
              sessionId := first.sessionId } ∧
      threshold ≤ sigs.length ∧
      (∀ sig ∈ sigs, sig.r = first.r) ∧
      (∀ sig ∈ sigs, sig.partyId ∈ validPartyIds totalParties) ∧
      threshold ≤
        (firstSeenDedup (sigs.map (fun sig => sig.partyId)) []).length := by
  cases sigs with
  | nil => rw [combine_nil] at h; exact Except.noConfusion h
  | cons first rest =>
    rw [combine_cons] at h
    by_cases h0 : (first :: rest).length < threshold
    · rw [if_pos h0] at h; exact Except.noConfusion h
    · rw [if_neg h0] at h
      by_cases hex : ∃ sig ∈ first :: rest, sig.r ≠ first.r
      · rw [if_pos hex] at h; exact Except.noConfusion h
      · rw [if_neg hex] at h
        push_neg at hex
        by_cases hall : ∀ sig ∈ first :: rest,
            sig.partyId ∈ validPartyIds totalParties
        · rw [if_neg (not_not_intro hall)] at h
          by_cases hcnt : (firstSeenDedup
              ((first :: rest).map (fun sig => sig.partyId)) []).length <
              threshold
          · rw [if_pos hcnt] at h; exact Except.noConfusion h
          · rw [if_neg hcnt] at h
            exact ⟨first, rest, rfl, (Except.ok.inj h).symm, by omega, hex,
              hall, by omega⟩
        · rw [if_pos hall] at h; exact Except.noConfusion h

/-- Extended-euclidean modular inverses are determined by the defining
equation: if `a * b = 1` in `ZMod n` then `a.invm = b`. -/
theorem zmod_inv_eq_of_mul_eq_one {n : Nat} (a b : ZMod n) (h : a * b = 1) :
    a⁻¹ = b := by
  have hu : IsUnit a := isUnit_of_mul_eq_one a b h
  calc a⁻¹ = a⁻¹ * (a * b) := by rw [h, mul_one]
    _ = a⁻¹ * a * b := by rw [mul_assoc]
    _ = 1 * b := by rw [ZMod.inv_mul_of_unit a hu]
    _ = b := one_mul b

/-- Everything kept by the selection loop comes from the accumulator or the
scanned input. -/
theorem select_mem (threshold : Nat) (l : List PartialSignature) :
    ∀ (acc : List PartialSignature) (used : List Nat)
      (x : PartialSignature), x ∈ selectUniqueSigs threshold l acc used →
      x ∈ acc ∨ x ∈ l := by
  induction l with
  | nil => intro acc used x hx; exact Or.inl hx
  | cons sig rest ih =>
    intro acc used x hx
    rw [selectUniqueSigs] at hx
    by_cases h1 : sig.partyId ∈ used
    · rw [if_pos h1] at hx
      rcases ih acc used x hx with h | h
      · exact Or.inl h
      · exact Or.inr (List.mem_cons_of_mem sig h)
    · rw [if_neg h1] at hx
      by_cases h2 : acc.length + 1 = threshold
      · rw [if_pos h2] at hx
        rcases List.mem_append.mp hx with h | h
        · exact Or.inl h
        · exact Or.inr (List.mem_singleton.mp h ▸ List.mem_cons_self sig rest)
      · rw [if_neg h2] at hx
        rcases ih (acc ++ [sig]) (sig.partyId :: used) x hx with h | h
        · rcases List.mem_append.mp h with h | h
          · exact Or.inl h
          · exact Or.inr (List.mem_singleton.mp h ▸ List.mem_cons_self sig rest)
        · exact Or.inr (List.mem_cons_of_mem sig h)

/-- C3: the four validations of `combinePartialSignatures` run in source
order — too few signatures, then a nonce (`r`) mismatch against the first
signature, then an out-of-range `partyId`, then too few distinct
`partyId`s — each yielding its own distinct failure, and an earlier
failing check masks all later ones (each conjunct constrains only the
checks before it). -/
theorem tss_C3 (N threshold totalParties : Nat) (message : String)
    (first : PartialSignature) (rest : List PartialSignature) :
    ((first :: rest).length < threshold →
      combinePartialSignatures N threshold totalParties message (first :: rest) =
        .error .insufficientSignatures) ∧
    (threshold ≤ (first :: rest).length →
      (∃ sig ∈ first :: rest, sig.r ≠ first.r) →
      combinePartialSignatures N threshold totalParties message (first :: rest) =
        .error .nonceMismatch) ∧
    (threshold ≤ (first :: rest).length →
      (∀ sig ∈ first :: rest, sig.r = first.r) →
      (∃ sig ∈ first :: rest, ¬ (1 ≤ sig.partyId ∧ sig.partyId ≤ totalParties)) →
      combinePartialSignatures N threshold totalParties message (first :: rest) =
        .error .invalidParty) ∧
    (threshold ≤ (first :: rest).length →
      (∀ sig ∈ first :: rest, sig.r = first.r) →
      (∀ sig ∈ first :: rest, 1 ≤ sig.partyId ∧ sig.partyId ≤ totalParties) →
      ((first :: rest).map (fun sig => sig.partyId)).toFinset.card < threshold →
      combinePartialSignatures N threshold totalParties message (first :: rest) =
        .error .insufficientUniqueParties) := by
  refine ⟨fun h0 => ?_, fun h0 hex => ?_, fun h0 hr hex => ?_,
    fun h0 hr hall hcnt => ?_⟩
  · rw [combine_cons, if_pos h0]
  · rw [combine_cons, if_neg (by omega), if_pos hex]
  · have hnex : ¬ ∃ sig ∈ first :: rest, sig.r ≠ first.r := by
      push_neg
      exact hr
    have hbad : ¬ ∀ sig ∈ first :: rest,
        sig.partyId ∈ validPartyIds totalParties := by
      rcases hex with ⟨sig, hmem, hout⟩
      intro hall
      exact hout ((mem_validPartyIds totalParties sig.partyId).mp (hall sig hmem))
    rw [combine_cons, if_neg (by omega), if_neg hnex, if_pos hbad]
  · have hnex : ¬ ∃ sig ∈ first :: rest, sig.r ≠ first.r := by
      push_neg
      exact hr
    have hall' : ∀ sig ∈ first :: rest,
        sig.partyId ∈ validPartyIds totalParties :=
      fun sig hs => (mem_validPartyIds totalParties sig.partyId).mpr (hall sig hs)
    have hcnt' : (firstSeenDedup
        ((first :: rest).map (fun sig => sig.partyId)) []).length < threshold := by
      rw [firstSeenDedup_length_eq_card]
      exact hcnt
    rw [combine_cons, if_neg (by omega), if_neg hnex,
      if_neg (not_not_intro hall'), if_pos hcnt']

/-- Witness for C3: each of the four failures at its own concrete input to
a 2-of-2 instance. -/
theorem tss_C3_witness :
    combinePartialSignatures 11 2 2 "m" [⟨1, "s", 5, 1, 9, "m"⟩] =
      .error .insufficientSignatures ∧
    combinePartialSignatures 11 2 2 "m"
      [⟨1, "s", 5, 1, 9, "m"⟩, ⟨2, "s", 6, 2, 9, "m"⟩] =
      .error .nonceMismatch ∧
    combinePartialSignatures 11 2 2 "m"
      [⟨1, "s", 5, 1, 9, "m"⟩, ⟨3, "s", 5, 2, 9, "m"⟩] =
      .error .invalidParty ∧
    combinePartialSignatures 11 2 2 "m"
      [⟨1, "s", 5, 1, 9, "m"⟩, ⟨1, "s", 5, 2, 9, "m"⟩] =
      .error .insufficientUniqueParties :=
  ⟨(tss_C3 11 2 2 "m" ⟨1, "s", 5, 1, 9, "m"⟩ []).1 (by decide),
   (tss_C3 11 2 2 "m" ⟨1, "s", 5, 1, 9, "m"⟩ [⟨2, "s", 6, 2, 9, "m"⟩]).2.1
     (by decide) (by decide),
   (tss_C3 11 2 2 "m" ⟨1, "s", 5, 1, 9, "m"⟩ [⟨3, "s", 5, 2, 9, "m"⟩]).2.2.1
     (by decide) (by decide) (by decide),
   (tss_C3 11 2 2 "m" ⟨1, "s", 5, 1, 9, "m"⟩ [⟨1, "s", 5, 2, 9, "m"⟩]).2.2.2
     (by decide) (by decide) (by decide) (by decide)⟩

/-- C5: every combined signature is in canonical low-s form: its `s` field
is the low-s normalization of the Lagrange-weighted sum (replaced by
`groupOrder - s` exactly when the sum exceeds `groupOrder / 2`), and in
particular `s ≤ groupOrder / 2`. -/
theorem tss_C5 (N threshold totalParties : Nat) (message : String)
    (sigs : List PartialSignature) (out : CombinedSignature)
    (h : combinePartialSignatures N threshold totalParties message sigs =
      .ok out) :
    out.s ≤ N / 2 ∧
    out.s = normalizeS N (lagrangeSum N (selectUniqueSigs threshold sigs [] [])) := by
  obtain ⟨first, rest, hsigs, hout, -, -, -, -⟩ :=
    combine_eq_ok N threshold totalParties message sigs out h
  constructor
  · rw [hout]
    exact normalizeS_le N _
  · rw [hout]

/-- Concrete successful 2-of-2 combination (matching sessionIds). -/
theorem combineExampleA :
    combinePartialSignatures 11 2 2 "m"
      [⟨1, "s", 5, 1, 9, "m"⟩, ⟨2, "s", 5, 2, 9, "m"⟩] =
      .ok ⟨5, 0, "m", 9, [1, 2], "s"⟩ := by
  have hinv1 : ((1 : ZMod 11) - 2)⁻¹ = 10 :=
    zmod_inv_eq_of_mul_eq_one _ _ (by decide)
  have hinv2 : ((2 : ZMod 11) - 1)⁻¹ = 1 :=
    zmod_inv_eq_of_mul_eq_one _ _ (by decide)
  rw [combine_cons, if_neg (by decide), if_neg (by decide), if_neg (by decide),
    if_neg (by decide)]
  have hsel : selectUniqueSigs 2
      [(⟨1, "s", 5, 1, 9, "m"⟩ : PartialSignature), ⟨2, "s", 5, 2, 9, "m"⟩] [] [] =
      [⟨1, "s", 5, 1, 9, "m"⟩, ⟨2, "s", 5, 2, 9, "m"⟩] := rfl
  rw [hsel]
  have hsum : lagrangeSum 11
      [(⟨1, "s", 5, 1, 9, "m"⟩ : PartialSignature), ⟨2, "s", 5, 2, 9, "m"⟩] = 0 := by
    simp [lagrangeSum, lagrangeCoefficient, hinv1, hinv2]
    decide
  rw [hsum]
  rfl

/-- Witness for C5: a concrete successful combination has `s = 0 ≤ 11 / 2`,
and `s` is the normalized Lagrange-weighted sum. -/
theorem tss_C5_witness :
    combinePartialSignatures 11 2 2 "m"
      [⟨1, "s", 5, 1, 9, "m"⟩, ⟨2, "s", 5, 2, 9, "m"⟩] =
      .ok ⟨5, 0, "m", 9, [1, 2], "s"⟩ ∧
    (0 : Nat) ≤ 11 / 2 ∧
    (0 : Nat) = normalizeS 11 (lagrangeSum 11 (selectUniqueSigs 2
      [⟨1, "s", 5, 1, 9, "m"⟩, ⟨2, "s", 5, 2, 9, "m"⟩] [] [])) :=
  ⟨combineExampleA,
   (tss_C5 11 2 2 "m" _ ⟨5, 0, "m", 9, [1, 2], "s"⟩ combineExampleA).1,
   (tss_C5 11 2 2 "m" _ ⟨5, 0, "m", 9, [1, 2], "s"⟩ combineExampleA).2⟩

/-- C8 (amended): in a successful combination every selected partial
signature carries the first signature's `r` (the only cross-signature
field the source validates, tss.mjs:176-181), and the combined record
copies the first signature's `sessionId` and `messageHash`.  (The claim as
frozen — that all selected signatures also share the first signature's
`sessionId` and `messageHash` — fails on the code, which never validates
those fields: see the counterexample.) -/
theorem tss_C8 (N threshold totalParties : Nat) (message : String)
    (first : PartialSignature) (rest : List PartialSignature)
    (out : CombinedSignature)
    (h : combinePartialSignatures N threshold totalParties message
      (first :: rest) = .ok out) :
    (∀ sig ∈ selectUniqueSigs threshold (first :: rest) [] [],
      sig.r = first.r) ∧
    out.sessionId = first.sessionId ∧
    out.messageHash = first.messageHash := by
  obtain ⟨first', rest', heq, hout, -, hr, -, -⟩ :=
    combine_eq_ok N threshold totalParties message (first :: rest) out h
  injection heq with h1 h2
  subst h1
  subst h2
  refine ⟨fun sig hs => ?_, ?_, ?_⟩
  · rcases select_mem threshold (first :: rest) [] [] sig hs with hsig | hsig
    · exact absurd hsig (List.not_mem_nil sig)
    · exact hr sig hsig
  · rw [hout]
  · rw [hout]

/-- Concrete successful 2-of-2 combination with mismatched sessionIds. -/
theorem combineExampleB :
    combinePartialSignatures 11 2 2 "m"
      [⟨1, "A", 5, 1, 9, "m"⟩, ⟨2, "B", 5, 2, 9, "m"⟩] =
      .ok ⟨5, 0, "m", 9, [1, 2], "A"⟩ := by
  have hinv1 : ((1 : ZMod 11) - 2)⁻¹ = 10 :=
    zmod_inv_eq_of_mul_eq_one _ _ (by decide)
  have hinv2 : ((2 : ZMod 11) - 1)⁻¹ = 1 :=
    zmod_inv_eq_of_mul_eq_one _ _ (by decide)
  rw [combine_cons, if_neg (by decide), if_neg (by decide), if_neg (by decide),
    if_neg (by decide)]
  have hsel : selectUniqueSigs 2
      [(⟨1, "A", 5, 1, 9, "m"⟩ : PartialSignature), ⟨2, "B", 5, 2, 9, "m"⟩] [] [] =
      [⟨1, "A", 5, 1, 9, "m"⟩, ⟨2, "B", 5, 2, 9, "m"⟩] := rfl
  rw [hsel]
  have hsum : lagrangeSum 11
      [(⟨1, "A", 5, 1, 9, "m"⟩ : PartialSignature), ⟨2, "B", 5, 2, 9, "m"⟩] = 0 := by
    simp [lagrangeSum, lagrangeCoefficient, hinv1, hinv2]
    decide
  rw [hsum]
  rfl

/-- Witness for the amended C8: a concrete successful combination where
every selected signature shares `r = 5` and the output copies the first
signature's sessionId and messageHash. -/
theorem tss_C8_witness :
    combinePartialSignatures 11 2 2 "m"
      [⟨1, "A", 5, 1, 9, "m"⟩, ⟨2, "B", 5, 2, 9, "m"⟩] =
      .ok ⟨5, 0, "m", 9, [1, 2], "A"⟩ ∧
    ((∀ sig ∈ selectUniqueSigs 2
        [⟨1, "A", 5, 1, 9, "m"⟩, ⟨2, "B", 5, 2, 9, "m"⟩] [] [],
      sig.r = (5 : Nat)) ∧
     ("A" : String) = "A" ∧ (9 : Nat) = 9) :=
  ⟨combineExampleB,
   tss_C8 11 2 2 "m" ⟨1, "A", 5, 1, 9, "m"⟩ [⟨2, "B", 5, 2, 9, "m"⟩]
     ⟨5, 0, "m", 9, [1, 2], "A"⟩ combineExampleB⟩

/-- Counterexample for C8 as frozen: a combination that succeeds although a
selected signature's `sessionId` differs from the first signature's —
`combinePartialSignatures` never checks `sessionId` or `messageHash`. -/
theorem tss_C8_counterexample :
    combinePartialSignatures 11 2 2 "m"
      [⟨1, "A", 5, 1, 9, "m"⟩, ⟨2, "B", 5, 2, 9, "m"⟩] =
      .ok ⟨5, 0, "m", 9, [1, 2], "A"⟩ ∧
    (⟨2, "B", 5, 2, 9, "m"⟩ : PartialSignature) ∈
      selectUniqueSigs 2 [⟨1, "A", 5, 1, 9, "m"⟩, ⟨2, "B", 5, 2, 9, "m"⟩] [] [] ∧
    (⟨2, "B", 5, 2, 9, "m"⟩ : PartialSignature).sessionId ≠
      (⟨1, "A", 5, 1, 9, "m"⟩ : PartialSignature).sessionId :=
  ⟨combineExampleB, by decide, by decide⟩

/-- The party ids kept by the selection loop are the first-seen distinct
ids of the scanned input, truncated at the threshold. -/
theorem select_map_partyId (threshold : Nat) (l : List PartialSignature) :
    ∀ (acc : List PartialSignature) (used : List Nat),
      acc.length < threshold →
      (selectUniqueSigs threshold l acc used).map (fun sig => sig.partyId) =
        acc.map (fun sig => sig.partyId) ++
          (firstSeenDedup (l.map (fun sig => sig.partyId)) used).take
            (threshold - acc.length) := by
  induction l with
  | nil =>
    intro acc used _
    simp [selectUniqueSigs, firstSeenDedup]
  | cons sig rest ih =>
    intro acc used hacc
    rw [selectUniqueSigs, List.map_cons, firstSeenDedup]
    by_cases h1 : sig.partyId ∈ used
    · rw [if_pos h1, if_pos h1]
      exact ih acc used hacc
    · rw [if_neg h1, if_neg h1]
      by_cases h2 : acc.length + 1 = threshold
      · rw [if_pos h2]
        have ht : threshold - acc.length = 1 := by omega
        rw [ht]
        simp
      · rw [if_neg h2]
        have hacc' : (acc ++ [sig]).length < threshold := by
          rw [List.length_append]
          simp only [List.length_singleton]
          omega
        rw [ih (acc ++ [sig]) (sig.partyId :: used) hacc']
        have ht : threshold - acc.length =
            (threshold - (acc ++ [sig]).length) + 1 := by
          rw [List.length_append]
          simp only [List.length_singleton]
          omega
        rw [ht, List.take_succ_cons, List.map_append]
        simp

/-- Once the scanned input already holds enough new distinct party ids to
reach the threshold, appending further signatures does not change the
selection. -/
theorem select_append (threshold : Nat) (extra : List PartialSignature)
    (l : List PartialSignature) :
    ∀ (acc : List PartialSignature) (used : List Nat),
      acc.length < threshold →
      threshold ≤ acc.length +
        (firstSeenDedup (l.map (fun sig => sig.partyId)) used).length →
      selectUniqueSigs threshold (l ++ extra) acc used =
        selectUniqueSigs threshold l acc used := by
  induction l with
  | nil =>
    intro acc used h1 h2
    simp [firstSeenDedup] at h2
    exact absurd h1 (by omega)
  | cons sig rest ih =>
    intro acc used h1 h2
    rw [List.map_cons, firstSeenDedup] at h2
    rw [List.cons_append, selectUniqueSigs, selectUniqueSigs]
    by_cases hu : sig.partyId ∈ used
    · rw [if_pos hu] at h2
      rw [if_pos hu, if_pos hu]
      exact ih acc used h1 h2
    · rw [if_neg hu] at h2
      rw [if_neg hu, if_neg hu]
      by_cases h3 : acc.length + 1 = threshold
      · rw [if_pos h3, if_pos h3]
      · rw [if_neg h3, if_neg h3]
        apply ih
        · rw [List.length_append]
          simp only [List.length_singleton]
          omega
        · rw [List.length_cons] at h2
          rw [List.length_append]
          simp only [List.length_singleton]
          omega

/-- Appending input can only increase the number of first-seen distinct
values. -/
theorem firstSeenDedup_append_le (l l' : List Nat) :
    ∀ seen : List Nat,
      (firstSeenDedup l seen).length ≤
        (firstSeenDedup (l ++ l') seen).length := by
  induction l with
  | nil =>
    intro seen
    simp [firstSeenDedup]
  | cons x xs ih =>
    intro seen
    rw [List.cons_append, firstSeenDedup, firstSeenDedup]
    by_cases hx : x ∈ seen
    · rw [if_pos hx, if_pos hx]
      exact ih seen
    · rw [if_neg hx, if_neg hx]
      simp only [List.length_cons]
      exact Nat.succ_le_succ (ih (x :: seen))

/-- C4: when every validation passes, the combined signature's
`participatingParties` is exactly the first-seen distinct party ids of the
input truncated at the threshold (so its length is exactly the threshold),
and appending any further signatures (duplicates or ids beyond the
threshold, with the shared `r` and valid ids) leaves the returned
signature unchanged. -/
theorem tss_C4 (N threshold totalParties : Nat) (message : String)
    (first : PartialSignature) (rest extra : List PartialSignature)
    (h2t : 2 ≤ threshold)
    (hlen : threshold ≤ (first :: rest).length)
    (hr : ∀ sig ∈ first :: rest, sig.r = first.r)
    (hall : ∀ sig ∈ first :: rest,
      1 ≤ sig.partyId ∧ sig.partyId ≤ totalParties)
    (hcnt : threshold ≤
      ((first :: rest).map (fun sig => sig.partyId)).toFinset.card)
    (hrext : ∀ sig ∈ extra, sig.r = first.r)
    (hallext : ∀ sig ∈ extra,
      1 ≤ sig.partyId ∧ sig.partyId ≤ totalParties) :
    (∃ out,
      combinePartialSignatures N threshold totalParties message
        (first :: rest) = .ok out ∧
      out.participatingParties =
        (firstSeenDedup ((first :: rest).map (fun sig => sig.partyId))
          []).take threshold ∧
      out.participatingParties.length = threshold) ∧
    combinePartialSignatures N threshold totalParties message
      ((first :: rest) ++ extra) =
    combinePartialSignatures N threshold totalParties message
      (first :: rest) := by
  have hnex : ¬ ∃ sig ∈ first :: rest, sig.r ≠ first.r := by
    push_neg
    exact hr
  have hall' : ∀ sig ∈ first :: rest,
      sig.partyId ∈ validPartyIds totalParties :=
    fun sig hs => (mem_validPartyIds totalParties sig.partyId).mpr (hall sig hs)
  have hcnt' : threshold ≤ (firstSeenDedup
      ((first :: rest).map (fun sig => sig.partyId)) []).length := by
    rw [firstSeenDedup_length_eq_card]
    exact hcnt
  have hsel := select_map_partyId threshold (first :: rest) [] []
    (by simp only [List.length_nil]; omega)
  simp only [List.map_nil, List.nil_append, List.length_nil,
    Nat.sub_zero] at hsel
  constructor
  · have hok : combinePartialSignatures N threshold totalParties message
        (first :: rest) =
        .ok { r := first.r,
              s := normalizeS N (lagrangeSum N
                (selectUniqueSigs threshold (first :: rest) [] [])),
              message := message,
              messageHash := first.messageHash,
              participatingParties :=
                (selectUniqueSigs threshold (first :: rest) [] []).map
                  (fun sig => sig.partyId),
              sessionId := first.sessionId } := by
      rw [combine_cons, if_neg (by omega), if_neg hnex,
        if_neg (not_not_intro hall'), if_neg (by omega)]
    refine ⟨_, hok, hsel, ?_⟩
    show ((selectUniqueSigs threshold (first :: rest) [] []).map
      (fun sig => sig.partyId)).length = threshold
    rw [hsel, List.length_take]
    omega
  · have hnex2 : ¬ ∃ sig ∈ (first :: rest) ++ extra, sig.r ≠ first.r := by
      push_neg
      intro sig hs
      rcases List.mem_append.mp hs with h | h
      · exact hr sig h
      · exact hrext sig h
    have hall2 : ∀ sig ∈ (first :: rest) ++ extra,
        sig.partyId ∈ validPartyIds totalParties := by
      intro sig hs
      rcases List.mem_append.mp hs with h | h
      · exact hall' sig h
      · exact (mem_validPartyIds totalParties sig.partyId).mpr (hallext sig h)
    have hcnt2 : threshold ≤ (firstSeenDedup
        (((first :: rest) ++ extra).map (fun sig => sig.partyId)) []).length := by
      rw [List.map_append]
      exact le_trans hcnt' (firstSeenDedup_append_le _ _ [])
    have hlen2 : threshold ≤ ((first :: rest) ++ extra).length := by
      rw [List.length_append]
      omega
    have hseleq : selectUniqueSigs threshold (first :: (rest ++ extra)) [] [] =
        selectUniqueSigs threshold (first :: rest) [] [] := by
      rw [← List.cons_append]
      exact select_append threshold extra (first :: rest) [] []
        (by simp only [List.length_nil]; omega)
        (by simpa using hcnt')
    simp only [List.cons_append] at hnex2 hall2 hcnt2 hlen2 ⊢
    rw [combine_cons, combine_cons, if_neg (by omega), if_neg hnex2,
      if_neg (not_not_intro hall2), if_neg (by omega), if_neg (by omega),
      if_neg hnex, if_neg (not_not_intro hall'), if_neg (by omega), hseleq]

/-- Witness for C4: a 2-of-3 instance fed three signatures (with a
duplicate of party 1) and one extra signature from party 3: the selection
takes parties `[1, 2]` in first-seen order, and the appended extra leaves
the result unchanged. -/
theorem tss_C4_witness :
    (2 ≤ 2) ∧
    ((∃ out,
      combinePartialSignatures 11 2 3 "m"
        [⟨1, "s", 5, 1, 9, "m"⟩, ⟨1, "s", 5, 7, 9, "m"⟩, ⟨2, "s", 5, 2, 9, "m"⟩] =
        .ok out ∧
      out.participatingParties =
        (firstSeenDedup
          (([⟨1, "s", 5, 1, 9, "m"⟩, ⟨1, "s", 5, 7, 9, "m"⟩,
             ⟨2, "s", 5, 2, 9, "m"⟩] : List PartialSignature).map
              (fun sig => sig.partyId)) []).take 2 ∧
      out.participatingParties.length = 2) ∧
    combinePartialSignatures 11 2 3 "m"
      ([⟨1, "s", 5, 1, 9, "m"⟩, ⟨1, "s", 5, 7, 9, "m"⟩, ⟨2, "s", 5, 2, 9, "m"⟩] ++
        [⟨3, "s", 5, 3, 9, "m"⟩]) =
    combinePartialSignatures 11 2 3 "m"
      [⟨1, "s", 5, 1, 9, "m"⟩, ⟨1, "s", 5, 7, 9, "m"⟩, ⟨2, "s", 5, 2, 9, "m"⟩]) :=
  ⟨by decide,
   tss_C4 11 2 3 "m" ⟨1, "s", 5, 1, 9, "m"⟩
     [⟨1, "s", 5, 7, 9, "m"⟩, ⟨2, "s", 5, 2, 9, "m"⟩] [⟨3, "s", 5, 3, 9, "m"⟩]
     (by decide) (by decide) (by decide) (by decide) (by decide) (by decide)
     (by decide)⟩

/-- A natural number in `1..N-1` casts to a nonzero residue. -/
theorem natCast_zmod_ne_zero (N j : Nat) (h1 : 1 ≤ j) (h2 : j < N) :
    (j : ZMod N) ≠ 0 := by
  haveI : NeZero N := ⟨by omega⟩
  intro h
  have hv := ZMod.val_cast_of_lt h2
  rw [h, ZMod.val_zero] at hv
  omega

/-- Distinct naturals below `N` have a nonzero difference modulo `N`. -/
theorem zmod_natCast_sub_ne_zero (N i j : Nat) (hi : i < N) (hj : j < N)
    (hij : i ≠ j) : ((i : ZMod N) - (j : ZMod N)) ≠ 0 := by
  rw [sub_ne_zero]
  intro h
  apply hij
  have h1 := ZMod.val_cast_of_lt hi
  have h2 := ZMod.val_cast_of_lt hj
  rw [h] at h1
  omega

/-- The `lagrangeCoefficient` fold written as a product, one factor per
index (`1` for the skipped index `i` itself). -/
theorem lagrange_foldl_eq (N i : Nat) (l : List Nat) :
    ∀ a : ZMod N,
      l.foldl (fun result j =>
        if i ≠ j then
          result * (-(j : ZMod N)) * (((i : ZMod N) - (j : ZMod N))⁻¹)
        else result) a =
      a * (l.map (fun j =>
        if i ≠ j then (-(j : ZMod N)) * (((i : ZMod N) - (j : ZMod N))⁻¹)
        else 1)).prod := by
  induction l with
  | nil => intro a; simp
  | cons j js ih =>
    intro a
    by_cases hj : i ≠ j
    · rw [List.foldl_cons, List.map_cons, List.prod_cons, if_pos hj, if_pos hj,
        ih]
      ring
    · rw [List.foldl_cons, List.map_cons, List.prod_cons, if_neg hj, if_neg hj,
        ih]
      ring

/-- `lagrangeCoefficient` as a product over the index list. -/
theorem lagrangeCoefficient_eq_prod (N i : Nat) (l : List Nat) :
    lagrangeCoefficient N i l =
      (l.map (fun j =>
        if i ≠ j then (-(j : ZMod N)) * (((i : ZMod N) - (j : ZMod N))⁻¹)
        else 1)).prod := by
  unfold lagrangeCoefficient
  rw [lagrange_foldl_eq, one_mul]

/-- C10: under the preconditions established by the combiner's validations
(selected ids distinct and within `1..totalParties`, and
`totalParties < groupOrder`), every inverse taken inside
`lagrangeCoefficient` is of a nonzero residue — for distinct selected ids
the difference `i - j` is nonzero modulo the group order — and the
resulting coefficient is itself nonzero, so the computation is total with
no undefined-inverse branch reachable. -/
theorem tss_C10 (N totalParties : Nat) (hp : N.Prime)
    (htp : totalParties < N) (i : Nat) (indices : List Nat)
    (_hnd : indices.Nodup)
    (hrange : ∀ j ∈ indices, 1 ≤ j ∧ j ≤ totalParties)
    (hi : 1 ≤ i ∧ i ≤ totalParties) :
    (∀ j ∈ indices, j ≠ i → ((i : ZMod N) - (j : ZMod N)) ≠ 0) ∧
    lagrangeCoefficient N i indices ≠ 0 := by
  haveI : Fact N.Prime := ⟨hp⟩
  constructor
  · intro j hj hne
    have hjr := hrange j hj
    exact zmod_natCast_sub_ne_zero N i j (by omega) (by omega)
      (fun h => hne h.symm)
  · rw [lagrangeCoefficient_eq_prod]
    apply List.prod_ne_zero
    intro h0
    rcases List.mem_map.mp h0 with ⟨j, hj, hval⟩
    have hjr := hrange j hj
    by_cases hij : i ≠ j
    · rw [if_pos hij] at hval
      exact mul_ne_zero
        (neg_ne_zero.mpr (natCast_zmod_ne_zero N j hjr.1 (by omega)))
        (inv_ne_zero (zmod_natCast_sub_ne_zero N i j (by omega) (by omega) hij))
        hval
    · rw [if_neg hij] at hval
      exact one_ne_zero hval

/-- Witness for C10: a 3-of-3 selection `[1, 2, 3]` over `ZMod 7`. -/
theorem tss_C10_witness :
    Nat.Prime 7 ∧ (3 : Nat) < 7 ∧
    ((∀ j ∈ ([1, 2, 3] : List Nat), j ≠ 1 →
        (((1 : Nat) : ZMod 7) - (j : ZMod 7)) ≠ 0) ∧
      lagrangeCoefficient 7 1 [1, 2, 3] ≠ 0) :=
  ⟨by norm_num, by norm_num,
   tss_C10 7 3 (by norm_num) (by norm_num) 1 [1, 2, 3] (by decide)
     (by decide) (by decide)⟩

/-- Horner form of the polynomial evaluated by `evaluatePolynomial`. -/
def hornerEval (N : Nat) (coefficients : List (ZMod N)) (x : ZMod N) :
    ZMod N :=
  coefficients.foldr (fun c acc => c + x * acc) 0

/-- The polynomial `Σ ci * X^i` with the given coefficient list (a proof
device relating `evaluatePolynomial` to `Polynomial.eval`; the executable
embedding of the source is `evaluatePolynomial` itself). -/
noncomputable def polyOf (N : Nat) (coefficients : List (ZMod N)) :
    Polynomial (ZMod N) :=
  coefficients.foldr
    (fun c acc => Polynomial.C c + Polynomial.X * acc) 0

/-- The accumulation loop of `evaluatePolynomial`, generalized over the
starting accumulator and power. -/
theorem evalPoly_foldl (N : Nat) (x : ZMod N) (cs : List (ZMod N)) :
    ∀ r p : ZMod N,
      (cs.foldl (fun acc coeff => (acc.1 + coeff * acc.2, acc.2 * x))
        (r, p)).1 = r + p * hornerEval N cs x := by
  induction cs with
  | nil =>
    intro r p
    simp [hornerEval]
  | cons c cs ih =>
    intro r p
    rw [List.foldl_cons]
    show (cs.foldl _ (r + c * p, p * x)).1 = _
    rw [ih (r + c * p) (p * x)]
    show r + c * p + p * x * hornerEval N cs x =
      r + p * (c + x * hornerEval N cs x)
    ring

/-- `evaluatePolynomial` computes the Horner evaluation. -/
theorem evaluatePolynomial_eq_horner (N : Nat) (cs : List (ZMod N))
    (x : ZMod N) : evaluatePolynomial N cs x = hornerEval N cs x := by
  unfold evaluatePolynomial
  rw [evalPoly_foldl]
  ring

/-- Evaluating at `0` yields the constant term. -/
theorem evaluatePolynomial_zero (N : Nat) (secret : ZMod N)
    (rest : List (ZMod N)) :
    evaluatePolynomial N (secret :: rest) 0 = secret := by
  rw [evaluatePolynomial_eq_horner]
  simp [hornerEval]

/-- `polyOf` evaluates like the Horner form. -/
theorem polyOf_eval (N : Nat) (cs : List (ZMod N)) (x : ZMod N) :
    (polyOf N cs).eval x = hornerEval N cs x := by
  induction cs with
  | nil => simp [polyOf, hornerEval]
  | cons c cs ih =>
    show (Polynomial.C c + Polynomial.X * polyOf N cs).eval x = _
    rw [Polynomial.eval_add, Polynomial.eval_C, Polynomial.eval_mul,
      Polynomial.eval_X, ih]
    rfl

/-- The degree of `polyOf cs` is below the coefficient count. -/
theorem polyOf_degree_lt (N : Nat) (cs : List (ZMod N)) :
    (polyOf N cs).degree < (cs.length : WithBot Nat) := by
  induction cs with
  | nil =>
    show (0 : Polynomial (ZMod N)).degree < _
    rw [Polynomial.degree_zero]
    exact WithBot.bot_lt_coe _
  | cons c cs ih =>
    show (Polynomial.C c + Polynomial.X * polyOf N cs).degree < _
    apply lt_of_le_of_lt (Polynomial.degree_add_le _ _)
    rw [max_lt_iff]
    constructor
    · apply lt_of_le_of_lt Polynomial.degree_C_le
      exact_mod_cast Nat.succ_pos cs.length
    · apply lt_of_le_of_lt (Polynomial.degree_mul_le _ _)
      apply lt_of_le_of_lt (add_le_add_right Polynomial.degree_X_le _)
      have hne : (1 : WithBot Nat) ≠ ⊥ := by
        simp
      calc (1 : WithBot Nat) + (polyOf N cs).degree
          < 1 + (cs.length : WithBot Nat) := WithBot.add_lt_add_left hne ih
        _ = ((cs.length + 1 : Nat) : WithBot Nat) := by
            rw [Nat.cast_add, Nat.cast_one, add_comm]

/-- Evaluating a Lagrange basis polynomial at `0` gives the product of
`-xj * (xi - xj)⁻¹` over the other nodes. -/
theorem basis_eval_zero {F : Type} [Field F] (s : Finset Nat) (v : Nat → F)
    (i : Nat) :
    (Lagrange.basis s v i).eval 0 =
      ∏ j ∈ s.erase i, -(v j) * (v i - v j)⁻¹ := by
  rw [Lagrange.basis, Polynomial.eval_prod]
  apply Finset.prod_congr rfl
  intro j _
  rw [Lagrange.basisDivisor, Polynomial.eval_mul, Polynomial.eval_C,
    Polynomial.eval_sub, Polynomial.eval_X, Polynomial.eval_C]
  ring

/-- On a duplicate-free index list, `lagrangeCoefficient` is the evaluation
at `0` of the Lagrange basis polynomial for the node map `j ↦ (j : ZMod N)`. -/
theorem lagrangeCoefficient_eq_basis_eval (N : Nat) [Fact N.Prime]
    (S : List Nat) (hnd : S.Nodup) (i : Nat) :
    lagrangeCoefficient N i S =
      (Lagrange.basis S.toFinset (fun j => (j : ZMod N)) i).eval 0 := by
  rw [lagrangeCoefficient_eq_prod, basis_eval_zero, ← List.prod_toFinset _ hnd,
    ← Finset.prod_filter, Finset.filter_ne]

/-- The node map `j ↦ (j : ZMod N)` is injective on indices below `N`. -/
theorem natCast_injOn_toFinset (N : Nat) (S : List Nat)
    (hlt : ∀ j ∈ S, j < N) :
    Set.InjOn (fun j : Nat => (j : ZMod N)) (S.toFinset : Set Nat) := by
  intro a ha b hb hab
  have ha' : a ∈ S := List.mem_toFinset.mp (Finset.mem_coe.mp ha)
  have hb' : b ∈ S := List.mem_toFinset.mp (Finset.mem_coe.mp hb)
  have h1 := ZMod.val_cast_of_lt (hlt a ha')
  have h2 := ZMod.val_cast_of_lt (hlt b hb')
  simp only at hab
  rw [hab] at h1
  omega

/-- Lagrange interpolation at `x = 0`: for nodes strictly below a prime
modulus and as many coefficients as nodes, pairing each node's
`lagrangeCoefficient` with the polynomial's value there sums to the
polynomial's value at `0`. -/
theorem interpolation_sum (N : Nat) (hp : N.Prime) (S : List Nat)
    (hnd : S.Nodup) (hlt : ∀ j ∈ S, j < N) (coeffs : List (ZMod N))
    (hdeg : coeffs.length = S.length) :
    (S.map (fun i => lagrangeCoefficient N i S *
      evaluatePolynomial N coeffs (i : ZMod N))).sum =
    evaluatePolynomial N coeffs 0 := by
  haveI : Fact N.Prime := ⟨hp⟩
  have hvs := natCast_injOn_toFinset N S hlt
  have hcard : S.toFinset.card = S.length := List.toFinset_card_of_nodup hnd
  have hdegf : (polyOf N coeffs).degree < S.toFinset.card := by
    rw [hcard, ← hdeg]
    exact polyOf_degree_lt N coeffs
  have hEP : ∀ x : ZMod N,
      evaluatePolynomial N coeffs x = (polyOf N coeffs).eval x := fun x => by
    rw [evaluatePolynomial_eq_horner, polyOf_eval]
  have hinterp := Lagrange.eq_interpolate hvs hdegf
  have heval := congrArg (Polynomial.eval 0) hinterp
  rw [Lagrange.interpolate_apply, Polynomial.eval_finset_sum] at heval
  simp only [Polynomial.eval_mul, Polynomial.eval_C] at heval
  rw [← List.sum_toFinset _ hnd]
  calc ∑ i ∈ S.toFinset,
        lagrangeCoefficient N i S * evaluatePolynomial N coeffs (i : ZMod N)
      = ∑ i ∈ S.toFinset,
          (polyOf N coeffs).eval ((i : ZMod N)) *
            (Lagrange.basis S.toFinset (fun j => (j : ZMod N)) i).eval 0 := by
        apply Finset.sum_congr rfl
        intro i _
        rw [hEP, lagrangeCoefficient_eq_basis_eval N S hnd i, mul_comm]
    _ = (polyOf N coeffs).eval 0 := heval.symm
    _ = evaluatePolynomial N coeffs 0 := (hEP 0).symm

/-- The Lagrange coefficients over a nonempty duplicate-free node list sum
to `1` (partition of unity at `x = 0`). -/
theorem lagrange_coeff_sum_one (N : Nat) (hp : N.Prime) (S : List Nat)
    (hnd : S.Nodup) (hne : S ≠ []) (hlt : ∀ j ∈ S, j < N) :
    (S.map (fun i => lagrangeCoefficient N i S)).sum = 1 := by
  haveI : Fact N.Prime := ⟨hp⟩
  have hvs := natCast_injOn_toFinset N S hlt
  have hs : S.toFinset.Nonempty := by
    rcases List.exists_mem_of_ne_nil S hne with ⟨x, hx⟩
    exact ⟨x, List.mem_toFinset.mpr hx⟩
  have hsum := Lagrange.sum_basis hvs hs
  have heval := congrArg (Polynomial.eval 0) hsum
  rw [Polynomial.eval_finset_sum, Polynomial.eval_one] at heval
  rw [← List.sum_toFinset _ hnd]
  calc ∑ i ∈ S.toFinset, lagrangeCoefficient N i S
      = ∑ i ∈ S.toFinset,
          (Lagrange.basis S.toFinset (fun j => (j : ZMod N)) i).eval 0 := by
        apply Finset.sum_congr rfl
        intro i _
        rw [lagrangeCoefficient_eq_basis_eval N S hnd i]
    _ = 1 := heval

/-- C2: for any secret, any coefficient list produced by
`generatePolynomialCoefficients` (length `threshold`, constant term the
secret), and any `threshold` distinct evaluation points from
`1..totalParties`, the Lagrange-weighted sum of the polynomial's values at
those points recovers the secret modulo the group order. -/
theorem tss_C2 (N threshold totalParties : Nat) (hp : N.Prime)
    (htp : totalParties < N) (h2t : 2 ≤ threshold) (secret : ZMod N)
    (randomScalars : Nat → ZMod N) (S : List Nat) (hnd : S.Nodup)
    (hlen : S.length = threshold)
    (hrange : ∀ i ∈ S, 1 ≤ i ∧ i ≤ totalParties) :
    (S.map (fun i => lagrangeCoefficient N i S *
      evaluatePolynomial N
        (generatePolynomialCoefficients N threshold secret randomScalars)
        (i : ZMod N))).sum = secret := by
  have hcl : (generatePolynomialCoefficients N threshold secret
      randomScalars).length = S.length := by
    simp only [generatePolynomialCoefficients, List.length_cons,
      List.length_map, List.length_range]
    omega
  rw [interpolation_sum N hp S hnd
    (fun j hj => by have := hrange j hj; omega) _ hcl]
  exact evaluatePolynomial_zero N secret _

/-- Witness for C2: a 2-of-3 sharing of the secret `3` over `ZMod 11` with
evaluation points `{1, 2}`. -/
theorem tss_C2_witness :
    Nat.Prime 11 ∧ (3 : Nat) < 11 ∧
    (([1, 2] : List Nat).map (fun i => lagrangeCoefficient 11 i [1, 2] *
      evaluatePolynomial 11
        (generatePolynomialCoefficients 11 2 (3 : ZMod 11) (fun _ => 5))
        (i : ZMod 11))).sum = 3 :=
  ⟨by norm_num, by norm_num,
   tss_C2 11 2 3 (by norm_num) (by norm_num) (by norm_num) 3 (fun _ => 5)
     [1, 2] (by decide) (by decide) (by decide)⟩

/-- On a duplicate-free list disjoint from `seen`, the first-seen
deduplication is the identity. -/
theorem firstSeenDedup_of_nodup (l : List Nat) :
    ∀ seen : List Nat, l.Nodup → (∀ x ∈ l, x ∉ seen) →
      firstSeenDedup l seen = l := by
  induction l with
  | nil => intro seen _ _; rfl
  | cons x xs ih =>
    intro seen hnd hdis
    rw [firstSeenDedup, if_neg (hdis x (List.mem_cons_self x xs))]
    rw [ih (x :: seen) (List.nodup_cons.mp hnd).2]
    intro y hy
    rw [List.mem_cons]
    rintro (h | h)
    · exact (List.nodup_cons.mp hnd).1 (h ▸ hy)
    · exact hdis y (List.mem_cons_of_mem x hy) h

/-- When the scanned input has pairwise distinct party ids disjoint from
`used` and exactly fills the threshold, the selection keeps everything. -/
theorem select_all (threshold : Nat) (l : List PartialSignature) :
    ∀ (acc : List PartialSignature) (used : List Nat),
      (l.map (fun sig => sig.partyId)).Nodup →
      (∀ sig ∈ l, sig.partyId ∉ used) →
      acc.length + l.length = threshold →
      selectUniqueSigs threshold l acc used = acc ++ l := by
  induction l with
  | nil =>
    intro acc used _ _ _
    simp [selectUniqueSigs]
  | cons sig rest ih =>
    intro acc used hnd hdis hcount
    rw [selectUniqueSigs,
      if_neg (hdis sig (List.mem_cons_self sig rest))]
    rw [List.map_cons, List.nodup_cons] at hnd
    by_cases h2 : acc.length + 1 = threshold
    · rw [if_pos h2]
      have : rest = [] := by
        apply List.eq_nil_of_length_eq_zero
        rw [List.length_cons] at hcount
        omega
      rw [this]
    · rw [if_neg h2]
      rw [ih (acc ++ [sig]) (sig.partyId :: used) hnd.2 ?_ ?_]
      · rw [List.append_assoc]
        rfl
      · intro s hs
        rw [List.mem_cons]
        rintro (h | h)
        · exact hnd.1 (h ▸ List.mem_map_of_mem (fun sig => sig.partyId) hs)
        · exact hdis s (List.mem_cons_of_mem sig hs) h
      · rw [List.length_append, List.length_singleton]
        rw [List.length_cons] at hcount
        omega

/-- The accumulation loop of `lagrangeSum`, generalized over the starting
accumulator. -/
theorem lagrangeSum_foldl (N : Nat) (ids : List Nat)
    (l : List PartialSignature) :
    ∀ a : ZMod N,
      l.foldl (fun s sig =>
        s + lagrangeCoefficient N sig.partyId ids * (sig.si : ZMod N)) a =
      a + (l.map (fun sig =>
        lagrangeCoefficient N sig.partyId ids * (sig.si : ZMod N))).sum := by
  induction l with
  | nil => intro a; simp
  | cons sig rest ih =>
    intro a
    rw [List.foldl_cons, ih, List.map_cons, List.sum_cons]
    ring

/-- `lagrangeSum` as a sum over the selected list. -/
theorem lagrangeSum_eq_map_sum (N : Nat) (l : List PartialSignature) :
    lagrangeSum N l =
      (l.map (fun sig => lagrangeCoefficient N sig.partyId
        (l.map (fun s => s.partyId)) * (sig.si : ZMod N))).sum := by
  unfold lagrangeSum
  rw [lagrangeSum_foldl, zero_add]

/-- The partial signatures produced when each party in `S` signs the same
message with the same explicitly supplied nonce, using the shares issued by
the key-generation loop. -/
def honestSigs (N threshold : Nat) (secret : ZMod N)
    (randomScalars : Nat → ZMod N) (hash : String → Nat) (gX : Nat → Nat)
    (message sessionId : String) (nonce : Nat) (S : List Nat) :
    List PartialSignature :=
  S.map (fun i => generatePartialSignature N hash gX message
    (keygenParty N threshold secret randomScalars i) sessionId nonce)

/-- C1: if `threshold` parties with distinct ids from one key set each sign
the same message with the same shared nonce (nonzero mod the prime group
order), then combining their partial signatures succeeds, and the
Lagrange-weighted sum computed before low-s normalization equals
`k⁻¹ * (e + r * secret)` — the textbook ECDSA signature scalar for the key
set's secret, which is what the external ECDSA primitive verifies against
`publicKey = scalarMultiply(basePoint, secret)`; the returned signature
carries exactly this `r` and the low-s normalization of this sum. -/
theorem tss_C1 (N threshold totalParties : Nat) (hp : N.Prime)
    (htp : totalParties < N) (h2t : 2 ≤ threshold) (secret : ZMod N)
    (randomScalars : Nat → ZMod N) (hash : String → Nat) (gX : Nat → Nat)
    (message sessionId : String) (nonce : Nat) (_hk : (nonce : ZMod N) ≠ 0)
    (S : List Nat) (hnd : S.Nodup) (hlen : S.length = threshold)
    (hrange : ∀ i ∈ S, 1 ≤ i ∧ i ≤ totalParties) :
    ∃ out,
      combinePartialSignatures N threshold totalParties message
        (honestSigs N threshold secret randomScalars hash gX message
          sessionId nonce S) = .ok out ∧
      lagrangeSum N (selectUniqueSigs threshold
        (honestSigs N threshold secret randomScalars hash gX message
          sessionId nonce S) [] []) =
        (nonce : ZMod N)⁻¹ * ((hash message : ZMod N) +
          ((gX (nonce : ZMod N).val : Nat) : ZMod N) * secret) ∧
      out.r = ((gX (nonce : ZMod N).val : Nat) : ZMod N).val ∧
      out.s = normalizeS N ((nonce : ZMod N)⁻¹ * ((hash message : ZMod N) +
        ((gX (nonce : ZMod N).val : Nat) : ZMod N) * secret)) := by
  haveI : Fact N.Prime := ⟨hp⟩
  haveI : NeZero N := ⟨by have := hp.two_le; omega⟩
  have hsi : ∀ i : Nat,
      ((generatePartialSignature N hash gX message
        (keygenParty N threshold secret randomScalars i) sessionId
        nonce).si : ZMod N) =
      (nonce : ZMod N)⁻¹ * ((hash message : ZMod N) +
        ((gX (nonce : ZMod N).val : Nat) : ZMod N) *
          evaluatePolynomial N
            (generatePolynomialCoefficients N threshold secret randomScalars)
            (i : ZMod N)) := by
    intro i
    show ((((nonce : ZMod N)⁻¹ * ((hash message : ZMod N) +
      ((gX (nonce : ZMod N).val : Nat) : ZMod N) *
        (((evaluatePolynomial N
          (generatePolynomialCoefficients N threshold secret randomScalars)
          (i : ZMod N)).val : Nat) : ZMod N))).val : Nat) : ZMod N) = _
    rw [ZMod.natCast_zmod_val, ZMod.natCast_zmod_val]
  have hids : (honestSigs N threshold secret randomScalars hash gX message
      sessionId nonce S).map (fun sig => sig.partyId) = S := by
    unfold honestSigs
    rw [List.map_map]
    have hpt : ∀ x ∈ S, ((fun sig => sig.partyId) ∘
        (fun i => generatePartialSignature N hash gX message
          (keygenParty N threshold secret randomScalars i) sessionId
          nonce)) x = x := fun x _ => rfl
    rw [List.map_congr_left hpt]
    simp
  have hlt : ∀ j ∈ S, j < N := fun j hj => by have := hrange j hj; omega
  have hr_all : ∀ sig ∈ honestSigs N threshold secret randomScalars hash gX
      message sessionId nonce S,
      sig.r = ((gX (nonce : ZMod N).val : Nat) : ZMod N).val := by
    intro sig hs
    unfold honestSigs at hs
    rcases List.mem_map.mp hs with ⟨i, _, rfl⟩
    rfl
  have hall : ∀ sig ∈ honestSigs N threshold secret randomScalars hash gX
      message sessionId nonce S,
      sig.partyId ∈ validPartyIds totalParties := by
    intro sig hs
    unfold honestSigs at hs
    rcases List.mem_map.mp hs with ⟨i, hi, rfl⟩
    rw [mem_validPartyIds]
    exact hrange i hi
  have hlenHS : (honestSigs N threshold secret randomScalars hash gX message
      sessionId nonce S).length = threshold := by
    unfold honestSigs
    rw [List.length_map, hlen]
  have hcnt : ¬ (firstSeenDedup
      ((honestSigs N threshold secret randomScalars hash gX message
        sessionId nonce S).map (fun sig => sig.partyId)) []).length <
      threshold := by
    rw [hids, firstSeenDedup_of_nodup S [] hnd
      (fun x _ => List.not_mem_nil x), hlen]
    omega
  have hsel : selectUniqueSigs threshold
      (honestSigs N threshold secret randomScalars hash gX message
        sessionId nonce S) [] [] =
      honestSigs N threshold secret randomScalars hash gX message
        sessionId nonce S := by
    have h := select_all threshold
      (honestSigs N threshold secret randomScalars hash gX message
        sessionId nonce S) [] []
      (by rw [hids]; exact hnd)
      (fun sig _ => List.not_mem_nil sig.partyId)
      (by rw [List.length_nil, hlenHS]; omega)
    simpa using h
  have hsum : lagrangeSum N
      (honestSigs N threshold secret randomScalars hash gX message
        sessionId nonce S) =
      (nonce : ZMod N)⁻¹ * ((hash message : ZMod N) +
        ((gX (nonce : ZMod N).val : Nat) : ZMod N) * secret) := by
    rw [lagrangeSum_eq_map_sum, hids]
    unfold honestSigs
    rw [List.map_map]
    have hmapeq : ∀ i ∈ S,
        ((fun sig => lagrangeCoefficient N sig.partyId S *
          (sig.si : ZMod N)) ∘
         (fun i => generatePartialSignature N hash gX message
          (keygenParty N threshold secret randomScalars i) sessionId
          nonce)) i =
        lagrangeCoefficient N i S *
          ((nonce : ZMod N)⁻¹ * ((hash message : ZMod N) +
            ((gX (nonce : ZMod N).val : Nat) : ZMod N) *
              evaluatePolynomial N
                (generatePolynomialCoefficients N threshold secret
                  randomScalars) (i : ZMod N))) := by
      intro i _
      show lagrangeCoefficient N
        ((generatePartialSignature N hash gX message
          (keygenParty N threshold secret randomScalars i) sessionId
          nonce).partyId) S *
        (((generatePartialSignature N hash gX message
          (keygenParty N threshold secret randomScalars i) sessionId
          nonce).si : Nat) : ZMod N) = _
      rw [hsi i]
      rfl
    rw [List.map_congr_left hmapeq]
    have hS1 : ∑ i ∈ S.toFinset, lagrangeCoefficient N i S = 1 := by
      rw [List.sum_toFinset _ hnd]
      exact lagrange_coeff_sum_one N hp S hnd
        (by intro h; rw [h] at hlen; simp at hlen; omega) hlt
    have hS2 : ∑ i ∈ S.toFinset, lagrangeCoefficient N i S *
        evaluatePolynomial N
          (generatePolynomialCoefficients N threshold secret randomScalars)
          (i : ZMod N) = secret := by
      rw [List.sum_toFinset _ hnd]
      have hcl : (generatePolynomialCoefficients N threshold secret
          randomScalars).length = S.length := by
        simp only [generatePolynomialCoefficients, List.length_cons,
          List.length_map, List.length_range]
        omega
      rw [interpolation_sum N hp S hnd hlt _ hcl]
      exact evaluatePolynomial_zero N secret _
    calc (S.map (fun i => lagrangeCoefficient N i S *
          ((nonce : ZMod N)⁻¹ * ((hash message : ZMod N) +
            ((gX (nonce : ZMod N).val : Nat) : ZMod N) *
              evaluatePolynomial N
                (generatePolynomialCoefficients N threshold secret
                  randomScalars) (i : ZMod N))))).sum
        = ∑ i ∈ S.toFinset, lagrangeCoefficient N i S *
            ((nonce : ZMod N)⁻¹ * ((hash message : ZMod N) +
              ((gX (nonce : ZMod N).val : Nat) : ZMod N) *
                evaluatePolynomial N
                  (generatePolynomialCoefficients N threshold secret
                    randomScalars) (i : ZMod N))) :=
          (List.sum_toFinset _ hnd).symm
      _ = ∑ i ∈ S.toFinset,
            (((nonce : ZMod N)⁻¹ * (hash message : ZMod N)) *
              lagrangeCoefficient N i S +
             ((nonce : ZMod N)⁻¹ *
               ((gX (nonce : ZMod N).val : Nat) : ZMod N)) *
              (lagrangeCoefficient N i S *
                evaluatePolynomial N
                  (generatePolynomialCoefficients N threshold secret
                    randomScalars) (i : ZMod N))) :=
          Finset.sum_congr rfl (fun i _ => by ring)
      _ = ((nonce : ZMod N)⁻¹ * (hash message : ZMod N)) *
            (∑ i ∈ S.toFinset, lagrangeCoefficient N i S) +
          ((nonce : ZMod N)⁻¹ *
            ((gX (nonce : ZMod N).val : Nat) : ZMod N)) *
            (∑ i ∈ S.toFinset, lagrangeCoefficient N i S *
              evaluatePolynomial N
                (generatePolynomialCoefficients N threshold secret
                  randomScalars) (i : ZMod N)) := by
          rw [Finset.sum_add_distrib, Finset.mul_sum, Finset.mul_sum]
      _ = (nonce : ZMod N)⁻¹ * ((hash message : ZMod N) +
            ((gX (nonce : ZMod N).val : Nat) : ZMod N) * secret) := by
          rw [hS1, hS2]
          ring
  obtain ⟨i0, S', hS⟩ : ∃ i0 S', S = i0 :: S' := by
    cases S with
    | nil =>
      exfalso
      rw [List.length_nil] at hlen
      omega
    | cons a l => exact ⟨a, l, rfl⟩
  have hHS : honestSigs N threshold secret randomScalars hash gX message
      sessionId nonce S =
      generatePartialSignature N hash gX message
        (keygenParty N threshold secret randomScalars i0) sessionId nonce ::
      S'.map (fun i => generatePartialSignature N hash gX message
        (keygenParty N threshold secret randomScalars i) sessionId nonce) := by
    rw [hS]
    unfold honestSigs
    rw [List.map_cons]
  have hnex : ¬ ∃ sig ∈ honestSigs N threshold secret randomScalars hash gX
      message sessionId nonce S,
      sig.r ≠ (generatePartialSignature N hash gX message
        (keygenParty N threshold secret randomScalars i0) sessionId
        nonce).r := by
    push_neg
    intro sig hs
    rw [hr_all sig hs]
    rfl
  have hok : combinePartialSignatures N threshold totalParties message
      (honestSigs N threshold secret randomScalars hash gX message
        sessionId nonce S) =
      .ok { r := (generatePartialSignature N hash gX message
              (keygenParty N threshold secret randomScalars i0) sessionId
              nonce).r,
            s := normalizeS N (lagrangeSum N (selectUniqueSigs threshold
              (honestSigs N threshold secret randomScalars hash gX message
                sessionId nonce S) [] [])),
            message := message,
            messageHash := (generatePartialSignature N hash gX message
              (keygenParty N threshold secret randomScalars i0) sessionId
              nonce).messageHash,
            participatingParties := (selectUniqueSigs threshold
              (honestSigs N threshold secret randomScalars hash gX message
                sessionId nonce S) [] []).map (fun sig => sig.partyId),
            sessionId := (generatePartialSignature N hash gX message
              (keygenParty N threshold secret randomScalars i0) sessionId
              nonce).sessionId } := by
    rw [hHS] at hnex hall hcnt hlenHS ⊢
    rw [combine_cons, if_neg (by omega), if_neg hnex,
      if_neg (not_not_intro hall), if_neg hcnt]
  refine ⟨_, hok, ?_, ?_, ?_⟩
  · rw [hsel, hsum]
  · rfl
  · show normalizeS N (lagrangeSum N (selectUniqueSigs threshold
      (honestSigs N threshold secret randomScalars hash gX message
        sessionId nonce S) [] [])) = _
    rw [hsel, hsum]

/-- Witness for C1: a 2-of-3 sharing of the secret `3` over `ZMod 11`,
parties `{1, 2}` signing message `"m"` with shared nonce `7`. -/
theorem tss_C1_witness :
    Nat.Prime 11 ∧ ((7 : Nat) : ZMod 11) ≠ 0 ∧
    (∃ out,
      combinePartialSignatures 11 2 3 "m"
        (honestSigs 11 2 (3 : ZMod 11) (fun _ => (5 : ZMod 11))
          (fun _ => (4 : Nat)) (fun x => x) "m" "s" 7 [1, 2]) = .ok out ∧
      lagrangeSum 11 (selectUniqueSigs 2
        (honestSigs 11 2 (3 : ZMod 11) (fun _ => (5 : ZMod 11))
          (fun _ => (4 : Nat)) (fun x => x) "m" "s" 7 [1, 2]) [] []) =
        ((7 : Nat) : ZMod 11)⁻¹ * (((4 : Nat) : ZMod 11) +
          ((((7 : Nat) : ZMod 11).val : Nat) : ZMod 11) * (3 : ZMod 11)) ∧
      out.r = ((((7 : Nat) : ZMod 11).val : Nat) : ZMod 11).val ∧
      out.s = normalizeS 11 (((7 : Nat) : ZMod 11)⁻¹ *
        (((4 : Nat) : ZMod 11) +
          ((((7 : Nat) : ZMod 11).val : Nat) : ZMod 11) * (3 : ZMod 11)))) :=
  ⟨by norm_num, by decide,
   tss_C1 11 2 3 (by norm_num) (by norm_num) (by norm_num) 3
     (fun _ => (5 : ZMod 11)) (fun _ => (4 : Nat)) (fun x => x) "m" "s" 7
     (by decide) [1, 2] (by decide) (by decide) (by decide)⟩
